import Mathlib

/-!
Shallow embedding of the Boltzmann-distribution simulator (src/main.py).

Python dicts are modelled as association lists in insertion order:
`dict[float, int]` shift tables become `List (ℚ × Int)` (thresholds are
only ever compared, so exact rationals embed the float comparisons),
`dict[int, int]` histograms become `List (Int × Nat)`, and the
real-valued density mappings of `plot` become `List (Int × ℚ)`.
A raised Python exception is modelled as `Option.none`; the injectable
random source is a function from (trial index, unit index) to the draw.
-/

namespace Boltzmann

/-- Embeds `get_shift` (src/main.py lines 21-24): scan the shift map in
insertion order and return the value of the first key with `x < key`,
else `None`. -/
def get_shift (shift_map : List (ℚ × Int)) (x : ℚ) : Option Int :=
  match shift_map with
  | [] => none
  | (key, v) :: rest => if x < key then some v else get_shift rest x

/-- Python's built-in `max` over the values of the shift map
(`max(shift_map.values())`); junk value 0 on an empty map, where Python
would raise `ValueError` — every theorem touching it assumes a non-empty
map. -/
def maxvals (shift_map : List (ℚ × Int)) : Int :=
  match shift_map.map Prod.snd with
  | [] => 0
  | v :: vs => vs.foldl max v

/-- Python's built-in `round`: round half to even (banker's rounding). -/
def pyRound (q : ℚ) : Int :=
  if q - ⌊q⌋ < 1 / 2 then ⌊q⌋
  else if 1 / 2 < q - ⌊q⌋ then ⌊q⌋ + 1
  else if Even ⌊q⌋ then ⌊q⌋ else ⌊q⌋ + 1

/-- Embeds `midpoint` (src/main.py lines 26-39):
`round(trials / 2 * max(shift_map.values()))`. -/
def midpoint (trials : Nat) (shift_map : List (ℚ × Int)) : Int :=
  pyRound ((trials : ℚ) / 2 * (maxvals shift_map : ℚ))

/-- One trial's inner loop over the units (src/main.py lines 69-77):
each unit's position is shifted by its looked-up step; a failed lookup
raises (`none`). `units` and `xs` always have the same length. -/
def trialStep (shift_map : List (ℚ × Int)) :
    List Int → List ℚ → Option (List Int)
  | [], _ => some []
  | _ :: _, [] => some []
  | u :: us, x :: xs =>
      match get_shift shift_map x, trialStep shift_map us xs with
      | some s, some rest => some ((u + s) :: rest)
      | _, _ => none

/-- The trial loop of `B` (src/main.py lines 65-77): run `k` more trials
starting at trial index `t0`, drawing `draws t i` for unit `i` of
trial `t`. -/
def runFrom (shift_map : List (ℚ × Int)) (draws : Nat → Nat → ℚ)
    (unit_number : Nat) : Nat → Nat → List Int → Option (List Int)
  | _, 0, units => some units
  | t0, k + 1, units =>
      match trialStep shift_map units
          ((List.range unit_number).map (draws t0)) with
      | none => none
      | some units2 => runFrom shift_map draws unit_number (t0 + 1) k units2

/-- One step of the counting loop of `B` (src/main.py line 82):
`results[u] = results.get(u, 0) + 1` on an insertion-ordered dict. -/
def bump : List (Int × Nat) → Int → List (Int × Nat)
  | [], u => [(u, 1)]
  | (a, n) :: rest, u =>
      if a = u then (a, n + 1) :: rest else (a, n) :: bump rest u

/-- The counting loop of `B` (src/main.py lines 80-82). -/
def countFold (l : List Int) : List (Int × Nat) :=
  l.foldl bump []

/-- Embeds `B` (src/main.py lines 41-84) with the random source made
explicit: initialise `unit_number` units at the midpoint, run `trials`
trials, then count the sorted final positions. `none` models the
`ValueError` raised on a failed lookup. -/
def B (unit_number trials : Nat) (shift_map : List (ℚ × Int))
    (draws : Nat → Nat → ℚ) : Option (List (Int × Nat)) :=
  let mid := midpoint trials shift_map
  let units := List.replicate unit_number mid
  (runFrom shift_map draws unit_number 0 trials units).map
    (fun final => countFold (final.insertionSort (· ≤ ·)))

/-- Embeds `save_csv` (src/main.py lines 87-90) as the list of lines it
writes, one `<position>,<count>` line per histogram entry in the
mapping's insertion order. -/
def save_csv (results : List (Int × Nat)) : List String :=
  results.map (fun kv => toString kv.1 ++ "," ++ toString kv.2)

/-- Embeds the normalisation pass of `plot` (src/main.py lines 105-107):
`total = sum(results.values()); results = {k : v / total ...}`. On a
non-empty histogram with zero total the first division raises
`ZeroDivisionError` (`none`); on the empty histogram the comprehension
performs no division and returns the empty mapping. -/
def normalize (results : List (Int × Nat)) : Option (List (Int × ℚ)) :=
  let total : Nat := (results.map Prod.snd).sum
  if total = 0 then (if results = [] then some [] else none)
  else some (results.map (fun kv => (kv.1, (kv.2 : ℚ) / (total : ℚ))))

/-- The window of neighbour offsets `range(-r, r + 1)` used by the
smoothing pass of `plot` (src/main.py line 114). -/
def window (r : Nat) : List Int :=
  (List.range (2 * r + 1)).map (fun i => (i : Int) - (r : Int))

/-- Python dict lookup `d.get(k)` on an insertion-ordered mapping. -/
def alookup : List (Int × ℚ) → Int → Option ℚ
  | [], _ => none
  | (a, b) :: rest, k => if a = k then some b else alookup rest k

/-- Python dict assignment `d[k] = v`: overwrite in place if the key is
present, otherwise append. -/
def setVal : List (Int × ℚ) → Int → ℚ → List (Int × ℚ)
  | [], k, v => [(k, v)]
  | (a, b) :: rest, k, v =>
      if a = k then (a, v) :: rest else (a, b) :: setVal rest k v

/-- The neighbour values of key `k` in mapping `cur`
(src/main.py lines 114-115): existing values at keys `k - r .. k + r`,
missing neighbours skipped. -/
def neighboursOf (r : Nat) (cur : List (Int × ℚ)) (k : Int) : List ℚ :=
  (window r).filterMap (fun i => alookup cur (k + i))

/-- One iteration of the smoothing loop of `plot`
(src/main.py lines 111-117): replace `cur[k]` by the average of its
existing neighbours in the *current* (already partially overwritten)
mapping. -/
def smoothStep (r : Nat) (cur : List (Int × ℚ)) (k : Int) :
    List (Int × ℚ) :=
  let ns := neighboursOf r cur k
  setVal cur k (ns.sum / (ns.length : ℚ))

/-- The smoothing loop of `plot` over an explicit key worklist. -/
def smoothGo (r : Nat) : List Int → List (Int × ℚ) → List (Int × ℚ)
  | [], cur => cur
  | k :: ks, cur => smoothGo r ks (smoothStep r cur k)

/-- Embeds the smoothing pass of `plot` (src/main.py lines 109-117):
iterate over the mapping's keys in insertion order, overwriting each
value in place. -/
def smooth (r : Nat) (d : List (Int × ℚ)) : List (Int × ℚ) :=
  smoothGo r (d.map Prod.fst) d

/-- Modelled from the spec (section 4.4): reference smoothing that
snapshots the source mapping first, so every key's average is taken
over the original, unmodified values. -/
def smoothSnap (r : Nat) (d : List (Int × ℚ)) : List (Int × ℚ) :=
  d.map (fun kv =>
    let ns := neighboursOf r d kv.1
    (kv.1, ns.sum / (ns.length : ℚ)))

/-- The smoothing loop with every division guarded: `none` as soon as a
key's neighbour list is empty (a division by zero in the source). -/
def smoothCheckedGo (r : Nat) :
    List Int → List (Int × ℚ) → Option (List (Int × ℚ))
  | [], cur => some cur
  | k :: ks, cur =>
      let ns := neighboursOf r cur k
      if ns.length = 0 then none
      else smoothCheckedGo r ks (setVal cur k (ns.sum / (ns.length : ℚ)))

/-- Division-guarded variant of `smooth`. -/
def smoothChecked (r : Nat) (d : List (Int × ℚ)) :
    Option (List (Int × ℚ)) :=
  smoothCheckedGo r (d.map Prod.fst) d

/-- Modelled from the spec (section 4.1 / 8): the step of the first
threshold strictly greater than `x`, in scan order. -/
def firstGreaterSpec (shift_map : List (ℚ × Int)) (x : ℚ) : Option Int :=
  (shift_map.find? (fun kv => decide (x < kv.1))).map Prod.snd

/-- Modelled from the spec (testable property 1, claim C1's reading):
the step of the first threshold greater than or equal to `x`. -/
def firstGeqSpec (shift_map : List (ℚ × Int)) (x : ℚ) : Option Int :=
  (shift_map.find? (fun kv => decide (x ≤ kv.1))).map Prod.snd

/-- A well-formed shift table: non-empty, thresholds strictly ascending
in iteration order, last threshold equal to 1. -/
def WFtable (shift_map : List (ℚ × Int)) : Prop :=
  shift_map ≠ [] ∧
    List.Chain' (· < ·) (shift_map.map Prod.fst) ∧
    (shift_map.map Prod.fst).getLast? = some 1

/-- Constant random source used by concrete witnesses. -/
def constDraws (q : ℚ) : Nat → Nat → ℚ := fun _ _ => q

end Boltzmann

namespace Boltzmann

theorem get_shift_eq_firstGreaterSpec (m : List (ℚ × Int)) (x : ℚ) :
    get_shift m x = firstGreaterSpec m x := by
  induction m with
  | nil => rfl
  | cons kv rest ih =>
    obtain ⟨k, v⟩ := kv
    by_cases h : x < k
    · simp [get_shift, firstGreaterSpec, List.find?, h]
    · simpa [get_shift, firstGreaterSpec, List.find?, h] using ih

theorem get_shift_isSome (m : List (ℚ × Int)) (x : ℚ)
    (h : ∃ kv ∈ m, x < kv.1) : ∃ s, get_shift m x = some s := by
  induction m with
  | nil => simp at h
  | cons kv rest ih =>
    obtain ⟨k, v⟩ := kv
    by_cases hx : x < k
    · exact ⟨v, by simp [get_shift, hx]⟩
    · obtain ⟨kv2, hkv2, hlt⟩ := h
      rcases List.mem_cons.mp hkv2 with heq | hmem
      · subst heq; exact absurd hlt hx
      · obtain ⟨s, hs⟩ := ih ⟨kv2, hmem, hlt⟩
        exact ⟨s, by simp [get_shift, hx, hs]⟩


/-- C1 counterexample: the table `{0.5 : -1, 1 : 1}` is well-formed and,
at `x = 0.5` (in `[0,1]`), `get_shift` returns the step `1` of the first
threshold strictly greater than `0.5`, not the step `-1` of the first
threshold greater than or equal to `0.5`; and at `x = 1` (also in
`[0,1]`) `get_shift` returns `None`, so the lookup does fail on `[0,1]`. -/
theorem C1_geq_counterexample :
    WFtable [((1:ℚ)/2, (-1:Int)), (1, 1)] ∧
      (0:ℚ) ≤ 1/2 ∧ (1/2:ℚ) ≤ 1 ∧
      firstGeqSpec [((1:ℚ)/2, (-1:Int)), (1, 1)] (1/2) = some (-1) ∧
      get_shift [((1:ℚ)/2, (-1:Int)), (1, 1)] (1/2) = some 1 ∧
      (0:ℚ) ≤ 1 ∧ (1:ℚ) ≤ 1 ∧
      get_shift [((1:ℚ)/2, (-1:Int)), (1, 1)] 1 = none := by
  refine ⟨⟨by simp, by norm_num [List.chain'_cons], by norm_num⟩,
    by norm_num, by norm_num, by norm_num [firstGeqSpec, List.find?],
    by norm_num [get_shift], by norm_num, by norm_num,
    by norm_num [get_shift]⟩

/-- C1 (amended): for every well-formed shift table (thresholds strictly
ascending in iteration order, last threshold `1`) and every `x` in
`[0, 1)`, `get_shift` returns the step of the first threshold *strictly
greater* than `x`, and never fails. (At `x = 1` it returns `None`, as
the counterexample shows.) -/
theorem C1_lookup_first_strictly_greater (m : List (ℚ × Int)) (x : ℚ)
    (hw : WFtable m) (hx0 : 0 ≤ x) (hx1 : x < 1) :
    ∃ s, get_shift m x = some s ∧ firstGreaterSpec m x = some s := by
  obtain ⟨hne, hasc, hlast⟩ := hw
  have h1mem : (1 : ℚ) ∈ m.map Prod.fst := List.mem_of_mem_getLast? hlast
  obtain ⟨kv, hkv, hk1⟩ := List.mem_map.mp h1mem
  obtain ⟨s, hs⟩ := get_shift_isSome m x ⟨kv, hkv, by rw [hk1]; exact hx1⟩
  exact ⟨s, hs, (get_shift_eq_firstGreaterSpec m x) ▸ hs⟩

/-- C1 witness: the amended lookup theorem applied to the default table
at `x = 1/4`. -/
theorem C1_lookup_witness :
    ∃ s, get_shift [((1:ℚ)/2, (-1:Int)), (1, 1)] (1/4) = some s ∧
      firstGreaterSpec [((1:ℚ)/2, (-1:Int)), (1, 1)] (1/4) = some s :=
  C1_lookup_first_strictly_greater [((1:ℚ)/2, (-1:Int)), (1, 1)] (1/4)
    ⟨by simp, by norm_num [List.chain'_cons], by norm_num⟩
    (by norm_num) (by norm_num)

/-- C2: the smoothing pass of `plot` does NOT compute averages from the
original density values — it reads already-overwritten values of earlier
keys. On the density `{0 : 2/3, 1 : 1/3}` the in-place loop writes
`5/12` for key `1` (averaging the already-smoothed `1/2` at key `0`
with `1/3`), while the snapshot reference smoothing required by the
spec writes `1/2`. -/
theorem C2_smooth_reads_overwritten_values :
    smooth 3 [((0:Int), (2:ℚ)/3), (1, 1/3)] = [(0, 1/2), (1, 5/12)] ∧
      smoothSnap 3 [((0:Int), (2:ℚ)/3), (1, 1/3)] = [(0, 1/2), (1, 1/2)] ∧
      smooth 3 [((0:Int), (2:ℚ)/3), (1, 1/3)]
        ≠ smoothSnap 3 [((0:Int), (2:ℚ)/3), (1, 1/3)] := by
  have h1 : smooth 3 [((0:Int), (2:ℚ)/3), (1, 1/3)]
      = [(0, 1/2), (1, 5/12)] := by
    norm_num [smooth, smoothGo, smoothStep, neighboursOf, window, alookup,
      setVal, List.range_succ, List.filterMap]
  have h2 : smoothSnap 3 [((0:Int), (2:ℚ)/3), (1, 1/3)]
      = [(0, 1/2), (1, 1/2)] := by
    norm_num [smoothSnap, neighboursOf, window, alookup,
      List.range_succ, List.filterMap]
  refine ⟨h1, h2, ?_⟩
  rw [h1, h2]
  norm_num

theorem sum_map_snd_div (l : List (Int × Nat)) (c : ℚ) :
    ((l.map (fun kv => (kv.1, (kv.2 : ℚ) / c))).map Prod.snd).sum
      = (((l.map Prod.snd).sum : Nat) : ℚ) / c := by
  induction l with
  | nil => simp
  | cons kv rest ih =>
    simp only [List.map_cons, List.sum_cons, ih]
    push_cast
    rw [add_div]

/-- C3 counterexample: on the empty histogram the total count is zero,
yet `normalize` does not fail — the comprehension performs no division
and silently returns the empty mapping (whose values sum to 0, not 1). -/
theorem C3_empty_histogram_counterexample :
    ((([] : List (Int × Nat)).map Prod.snd).sum = 0) ∧
      normalize [] = some [] := by
  exact ⟨rfl, rfl⟩

/-- C3 (amended): `normalize` fails (a `ZeroDivisionError`, modelled as
`none`) exactly on *non-empty* histograms with zero total count; on the
empty histogram it returns the empty mapping without failing; and
whenever the total count is non-zero it returns a mapping whose values
sum to exactly 1. -/
theorem C3_normalize_total (h : List (Int × Nat)) :
    (h ≠ [] → (h.map Prod.snd).sum = 0 → normalize h = none) ∧
      ((h.map Prod.snd).sum ≠ 0 →
        ∃ d, normalize h = some d ∧ (d.map Prod.snd).sum = 1) := by
  constructor
  · intro hne h0
    simp [normalize, h0, hne]
  · intro h0
    refine ⟨h.map (fun kv => (kv.1, (kv.2 : ℚ) / ((h.map Prod.snd).sum : ℚ))),
      by simp [normalize, h0], ?_⟩
    rw [sum_map_snd_div]
    exact div_self (by exact_mod_cast h0)

/-- C3 witness: the amended normalisation theorem applied to the
all-zero histogram `{3 : 0}` (fails) and to `{0 : 2, 1 : 6}` (sums
to 1). -/
theorem C3_normalize_witness :
    normalize [((3:Int), 0)] = none ∧
      ∃ d, normalize [((0:Int), 2), (1, 6)] = some d ∧
        (d.map Prod.snd).sum = 1 :=
  ⟨(C3_normalize_total [((3:Int), 0)]).1 (by decide) (by decide),
   (C3_normalize_total [((0:Int), 2), (1, 6)]).2 (by decide)⟩

theorem le_foldl_max_init (v : Int) (vs : List Int) : v ≤ vs.foldl max v := by
  induction vs generalizing v with
  | nil => exact le_refl v
  | cons w ws ih => exact le_trans (le_max_left v w) (ih (max v w))

theorem le_foldl_max_of_mem (u : Int) (vs : List Int) (v : Int)
    (h : u ∈ vs) : u ≤ vs.foldl max v := by
  induction vs generalizing v with
  | nil => simp at h
  | cons w ws ih =>
    rcases List.mem_cons.mp h with rfl | h2
    · exact le_trans (le_max_right v u) (le_foldl_max_init (max v u) ws)
    · exact ih (max v w) h2

theorem foldl_max_mem (v : Int) (vs : List Int) : vs.foldl max v ∈ v :: vs := by
  induction vs generalizing v with
  | nil => simp
  | cons w ws ih =>
    have h := ih (max v w)
    show ws.foldl max (max v w) ∈ v :: w :: ws
    rcases List.mem_cons.mp h with h1 | h1
    · rw [h1]
      rcases max_choice v w with hm | hm <;> rw [hm]
      · exact List.mem_cons_self _ _
      · exact List.mem_cons_of_mem _ (List.mem_cons_self _ _)
    · exact List.mem_cons_of_mem _ (List.mem_cons_of_mem _ h1)

theorem maxvals_mem (m : List (ℚ × Int)) (hne : m ≠ []) :
    maxvals m ∈ m.map Prod.snd := by
  cases m with
  | nil => exact absurd rfl hne
  | cons kv rest => exact foldl_max_mem kv.2 (rest.map Prod.snd)

theorem maxvals_is_ub (m : List (ℚ × Int)) (u : Int)
    (h : u ∈ m.map Prod.snd) : u ≤ maxvals m := by
  cases m with
  | nil => simp at h
  | cons kv rest =>
    rcases List.mem_cons.mp h with rfl | h2
    · exact le_foldl_max_init _ _
    · exact le_foldl_max_of_mem _ _ _ h2

/-- C6: for every trial count and non-empty shift table, `midpoint`
equals `round(trial_count / 2 * hs)` where `hs` is the maximum step
value of the table (it is a member and an upper bound of the values),
with `round` Python's round-half-to-even; in particular
`midpoint(100, {0.5 : -1, 1 : 1}) = 50`. -/
theorem C6_midpoint_formula (t : Nat) (m : List (ℚ × Int)) (hne : m ≠ []) :
    (∃ hs : Int, hs ∈ m.map Prod.snd ∧ (∀ u ∈ m.map Prod.snd, u ≤ hs) ∧
        midpoint t m = pyRound ((t : ℚ) / 2 * (hs : ℚ))) ∧
      midpoint 100 [((1:ℚ)/2, (-1:Int)), (1, 1)] = 50 := by
  refine ⟨⟨maxvals m, maxvals_mem m hne,
    fun u hu => maxvals_is_ub m u hu, rfl⟩, ?_⟩
  norm_num [midpoint, maxvals, pyRound]

/-- C6 witness: the midpoint formula at `trial_count = 100` and the
default table `{0.5 : -1, 1 : 1}`. -/
theorem C6_midpoint_witness :
    (∃ hs : Int, hs ∈ ([((1:ℚ)/2, (-1:Int)), (1, 1)]).map Prod.snd ∧
        (∀ u ∈ ([((1:ℚ)/2, (-1:Int)), (1, 1)]).map Prod.snd, u ≤ hs) ∧
        midpoint 100 [((1:ℚ)/2, (-1:Int)), (1, 1)]
          = pyRound ((100 : ℚ) / 2 * (hs : ℚ))) ∧
      midpoint 100 [((1:ℚ)/2, (-1:Int)), (1, 1)] = 50 :=
  C6_midpoint_formula 100 [((1:ℚ)/2, (-1:Int)), (1, 1)] (by simp)

/-- C8: on a density with a single key `k`, the smoothing pass of `plot`
leaves the mapping unchanged: the only existing neighbour in
`k - 3 .. k + 3` is `k` itself, so the window shrinks to the key and the
average equals the value. -/
theorem C8_smooth_singleton (k : Int) (v : ℚ) :
    smooth 3 [(k, v)] = [(k, v)] := by
  have hwin : window 3 = [-3, -2, -1, 0, 1, 2, 3] := by decide
  show smoothStep 3 [(k, v)] k = [(k, v)]
  simp [smoothStep, neighboursOf, hwin, alookup, setVal]

theorem alookup_of_mem_keys (cur : List (Int × ℚ)) (k : Int)
    (h : k ∈ cur.map Prod.fst) : ∃ b, alookup cur k = some b := by
  induction cur with
  | nil => simp at h
  | cons kv rest ih =>
    obtain ⟨a, b⟩ := kv
    by_cases hk : a = k
    · exact ⟨b, by simp [alookup, hk]⟩
    · have h4 : k ∈ a :: rest.map Prod.fst := by
        simpa only [List.map_cons] using h
      have h2 : k ∈ rest.map Prod.fst := by
        rcases List.mem_cons.mp h4 with h3 | h3
        · exact absurd h3.symm hk
        · exact h3
      obtain ⟨b2, hb2⟩ := ih h2
      exact ⟨b2, by simp [alookup, hk, hb2]⟩

theorem setVal_keys_of_mem (cur : List (Int × ℚ)) (k : Int) (v : ℚ)
    (h : k ∈ cur.map Prod.fst) :
    (setVal cur k v).map Prod.fst = cur.map Prod.fst := by
  induction cur with
  | nil => simp at h
  | cons kv rest ih =>
    obtain ⟨a, b⟩ := kv
    by_cases hk : a = k
    · simp [setVal, hk]
    · have h4 : k ∈ a :: rest.map Prod.fst := by
        simpa only [List.map_cons] using h
      have h2 : k ∈ rest.map Prod.fst := by
        rcases List.mem_cons.mp h4 with h3 | h3
        · exact absurd h3.symm hk
        · exact h3
      simp [setVal, hk, ih h2]

theorem neighboursOf_ne_nil (cur : List (Int × ℚ)) (k : Int)
    (h : k ∈ cur.map Prod.fst) : neighboursOf 3 cur k ≠ [] := by
  obtain ⟨b, hb⟩ := alookup_of_mem_keys cur k h
  have h0win : (0 : Int) ∈ window 3 := by decide
  have hmem : b ∈ neighboursOf 3 cur k :=
    List.mem_filterMap.mpr ⟨0, h0win, by simpa using hb⟩
  exact List.ne_nil_of_mem hmem

theorem smoothCheckedGo_eq (ks : List Int) (cur : List (Int × ℚ))
    (h : ∀ k ∈ ks, k ∈ cur.map Prod.fst) :
    smoothCheckedGo 3 ks cur = some (smoothGo 3 ks cur) := by
  induction ks generalizing cur with
  | nil => rfl
  | cons k ks ih =>
    have hk := h k (List.mem_cons_self _ _)
    have hne := neighboursOf_ne_nil cur k hk
    have hlen : ¬((neighboursOf 3 cur k).length = 0) := by
      simpa [List.length_eq_zero] using hne
    have hstep : smoothCheckedGo 3 (k :: ks) cur
        = smoothCheckedGo 3 ks (smoothStep 3 cur k) := by
      simp only [smoothCheckedGo, smoothStep]
      rw [if_neg hlen]
    have hkeys : (smoothStep 3 cur k).map Prod.fst = cur.map Prod.fst := by
      simp only [smoothStep]
      exact setVal_keys_of_mem cur k _ hk
    rw [hstep]
    show _ = some (smoothGo 3 ks (smoothStep 3 cur k))
    apply ih
    intro k2 hk2
    rw [hkeys]
    exact h k2 (List.mem_cons_of_mem _ hk2)

/-- C10: in the smoothing pass of `plot`, every key's neighbour list is
non-empty (it always contains the key itself), so the division by the
number of neighbours never divides by zero: the division-guarded
smoothing never fails and agrees with the unguarded one. -/
theorem C10_smooth_no_div_by_zero (d : List (Int × ℚ)) :
    smoothChecked 3 d = some (smooth 3 d) :=
  smoothCheckedGo_eq (d.map Prod.fst) d (fun _ hk => hk)

theorem trialStep_none_of_fail (m : List (ℚ × Int)) :
    ∀ (us : List Int) (xs : List ℚ) (i : Nat) (hiu : i < us.length)
      (hix : i < xs.length), get_shift m xs[i] = none →
      trialStep m us xs = none := by
  intro us
  induction us with
  | nil =>
    intro xs i hiu hix hg
    simp at hiu
  | cons u us ih =>
    intro xs i hiu hix hg
    cases xs with
    | nil => simp at hix
    | cons x xs =>
      cases i with
      | zero =>
        simp only [List.getElem_cons_zero] at hg
        simp [trialStep, hg]
      | succ j =>
        have hrec := ih xs j (by simpa using hiu) (by simpa using hix)
          (by simpa using hg)
        cases hgx : get_shift m x <;> simp [trialStep, hgx, hrec]

theorem trialStep_length (m : List (ℚ × Int)) :
    ∀ (us : List Int) (xs : List ℚ) (r : List Int),
      trialStep m us xs = some r → r.length = min us.length xs.length := by
  intro us
  induction us with
  | nil =>
    intro xs r h
    simp [trialStep] at h
    subst h
    simp
  | cons u us ih =>
    intro xs r h
    cases xs with
    | nil =>
      simp [trialStep] at h
      subst h
      simp
    | cons x xs =>
      cases hgx : get_shift m x with
      | none => simp [trialStep, hgx] at h
      | some s =>
        cases hts : trialStep m us xs with
        | none => simp [trialStep, hgx, hts] at h
        | some rest =>
          simp only [trialStep, hgx, hts, Option.some.injEq] at h
          rw [← h]
          simp only [List.length_cons, ih xs rest hts]
          omega

theorem runFrom_none_of_fail (m : List (ℚ × Int)) (draws : Nat → Nat → ℚ)
    (N : Nat) :
    ∀ (k t0 : Nat) (units : List Int), units.length = N →
      (∃ j < k, ∃ i < N, get_shift m (draws (t0 + j) i) = none) →
      runFrom m draws N t0 k units = none := by
  intro k
  induction k with
  | zero =>
    intro t0 units hlen hex
    obtain ⟨j, hj, _⟩ := hex
    omega
  | succ k ih =>
    intro t0 units hlen hex
    cases hts : trialStep m units ((List.range N).map (draws t0)) with
    | none => simp [runFrom, hts]
    | some units2 =>
      obtain ⟨j, hj, i, hi, hg⟩ := hex
      cases j with
      | zero =>
        have hnone := trialStep_none_of_fail m units
          ((List.range N).map (draws t0)) i (by rw [hlen]; exact hi)
          (by simpa using hi)
          (by simpa using hg)
        rw [hnone] at hts
        exact absurd hts (by simp)
      | succ j2 =>
        have hlen2 : units2.length = N := by
          have hl := trialStep_length m units _ units2 hts
          simpa [hlen] using hl
        have hg2 : get_shift m (draws ((t0 + 1) + j2) i) = none := by
          rw [show (t0 + 1) + j2 = t0 + (j2 + 1) by omega]
          exact hg
        have hrec := ih (t0 + 1) units2 hlen2 ⟨j2, by omega, i, hi, hg2⟩
        simp [runFrom, hts, hrec]

/-- C4: for every shift table and every `x` with no threshold exceeding
`x`, `get_shift` returns `None` (no silent default step); and the
simulator `B` propagates any unit's failed lookup and aborts the whole
run with an error (`none`), producing no histogram at all. -/
theorem C4_lookup_failure_aborts :
    (∀ (m : List (ℚ × Int)) (x : ℚ), (∀ kv ∈ m, ¬ x < kv.1) →
        get_shift m x = none) ∧
      (∀ (N T : Nat) (m : List (ℚ × Int)) (draws : Nat → Nat → ℚ),
        (∃ t < T, ∃ i < N, get_shift m (draws t i) = none) →
        B N T m draws = none) := by
  constructor
  · intro m x hall
    induction m with
    | nil => rfl
    | cons kv rest ih =>
      obtain ⟨k, v⟩ := kv
      have hk : ¬ x < k := hall (k, v) (List.mem_cons_self _ _)
      have hrest := ih (fun kv2 hkv2 => hall kv2 (List.mem_cons_of_mem _ hkv2))
      simp [get_shift, hk, hrest]
  · intro N T m draws hex
    obtain ⟨t, ht, i, hi, hg⟩ := hex
    have hrun := runFrom_none_of_fail m draws N T 0
      (List.replicate N (midpoint T m)) (List.length_replicate _ _)
      ⟨t, ht, i, hi, by simpa using hg⟩
    simp [B, hrun]

/-- C4 witness: the malformed table `{0.9 : 1}` does not cover the draw
`x = 0.95`; the lookup fails and a 1-unit 1-trial run aborts. -/
theorem C4_witness :
    get_shift [((9:ℚ)/10, (1:Int))] (19/20) = none ∧
      B 1 1 [((9:ℚ)/10, (1:Int))] (constDraws (19/20)) = none :=
  ⟨C4_lookup_failure_aborts.1 [((9:ℚ)/10, (1:Int))] (19/20)
      (by intro kv hkv; simp at hkv; subst hkv; norm_num),
   C4_lookup_failure_aborts.2 1 1 [((9:ℚ)/10, (1:Int))] (constDraws (19/20))
      ⟨0, by omega, 0, by omega, by norm_num [constDraws, get_shift]⟩⟩

theorem runFrom_length (m : List (ℚ × Int)) (draws : Nat → Nat → ℚ)
    (N : Nat) :
    ∀ (k t0 : Nat) (units final : List Int), units.length = N →
      runFrom m draws N t0 k units = some final → final.length = N := by
  intro k
  induction k with
  | zero =>
    intro t0 units final hlen h
    simp [runFrom] at h
    rw [← h]
    exact hlen
  | succ k ih =>
    intro t0 units final hlen h
    cases hts : trialStep m units ((List.range N).map (draws t0)) with
    | none => simp [runFrom, hts] at h
    | some units2 =>
      have hlen2 : units2.length = N := by
        have hl := trialStep_length m units _ units2 hts
        simpa [hlen] using hl
      simp only [runFrom, hts] at h
      exact ih (t0 + 1) units2 final hlen2 h

theorem sumSnd_bump (acc : List (Int × Nat)) (u : Int) :
    ((bump acc u).map Prod.snd).sum = (acc.map Prod.snd).sum + 1 := by
  induction acc with
  | nil => simp [bump]
  | cons kv rest ih =>
    obtain ⟨a, n⟩ := kv
    by_cases h : a = u
    · simp [bump, h]
      omega
    · simp [bump, h, ih]
      omega

theorem sumSnd_foldl_bump (l : List Int) :
    ∀ acc : List (Int × Nat),
      ((l.foldl bump acc).map Prod.snd).sum
        = (acc.map Prod.snd).sum + l.length := by
  induction l with
  | nil => intro acc; simp
  | cons u rest ih =>
    intro acc
    simp only [List.foldl_cons, List.length_cons]
    rw [ih (bump acc u), sumSnd_bump]
    omega

/-- C5: for every run of `B` with `unit_number = N ≥ 1` that completes
without lookup failure, the counts of the returned histogram sum to
exactly `N`; and the population list keeps length `N` through every
trial of the run. -/
theorem C5_histogram_counts_sum (N T : Nat) (m : List (ℚ × Int))
    (draws : Nat → Nat → ℚ) (h : List (Int × Nat))
    (hN : 1 ≤ N) (hB : B N T m draws = some h) :
    (h.map Prod.snd).sum = N ∧
      (∀ t0 k units final, units.length = N →
        runFrom m draws N t0 k units = some final → final.length = N) := by
  obtain ⟨final, hrun, hcount⟩ := Option.map_eq_some'.mp hB
  have hflen : final.length = N :=
    runFrom_length m draws N T 0 (List.replicate N (midpoint T m)) final
      (List.length_replicate _ _) hrun
  constructor
  · rw [← hcount]
    rw [countFold, sumSnd_foldl_bump]
    simp [List.length_insertionSort, hflen]
  · intro t0 k units fin2 hlen2 hrun2
    exact runFrom_length m draws N k t0 units fin2 hlen2 hrun2

/-- C5 witness: a 2-unit 0-trial run of `B` over the table `{1 : 1}`
returns a histogram whose counts sum to 2. -/
theorem C5_witness :
    (([((0:Int), 2)] : List (Int × Nat)).map Prod.snd).sum = 2 :=
  (C5_histogram_counts_sum 2 0 [((1:ℚ), (1:Int))] (constDraws 0)
      [((0:Int), 2)] (by omega)
      (by norm_num [B, runFrom, midpoint, maxvals, pyRound, countFold,
        List.insertionSort, List.orderedInsert, bump])).1

/-- C7: for every non-empty shift table and any random source,
`B(unit_number = 1, trial_count = 0, table)` returns a histogram with
exactly one entry, mapping `midpoint(0, table)` to the count 1. -/
theorem C7_single_unit_no_trials (m : List (ℚ × Int))
    (draws : Nat → Nat → ℚ) (hne : m ≠ []) :
    B 1 0 m draws = some [(midpoint 0 m, 1)] := rfl

/-- C7 witness: the zero-trial run on the table `{1 : 1}` with a
constant random source. -/
theorem C7_witness :
    B 1 0 [((1:ℚ), (1:Int))] (constDraws 0)
      = some [(midpoint 0 [((1:ℚ), (1:Int))], 1)] :=
  C7_single_unit_no_trials [((1:ℚ), (1:Int))] (constDraws 0) (by simp)

theorem keys_bump_of_mem (acc : List (Int × Nat)) (u : Int)
    (h : u ∈ acc.map Prod.fst) :
    (bump acc u).map Prod.fst = acc.map Prod.fst := by
  induction acc with
  | nil => simp at h
  | cons kv rest ih =>
    obtain ⟨a, n⟩ := kv
    by_cases hau : a = u
    · simp [bump, hau]
    · have h4 : u ∈ a :: rest.map Prod.fst := by
        simpa only [List.map_cons] using h
      have h2 : u ∈ rest.map Prod.fst := by
        rcases List.mem_cons.mp h4 with h3 | h3
        · exact absurd h3.symm hau
        · exact h3
      simp [bump, hau, ih h2]

theorem keys_bump_of_not_mem (acc : List (Int × Nat)) (u : Int)
    (h : u ∉ acc.map Prod.fst) :
    (bump acc u).map Prod.fst = acc.map Prod.fst ++ [u] := by
  induction acc with
  | nil => simp [bump]
  | cons kv rest ih =>
    obtain ⟨a, n⟩ := kv
    have hau : ¬ a = u := by
      intro he
      exact h (by simp [he])
    have h2 : u ∉ rest.map Prod.fst := by
      intro hmem
      exact h (by simp [hmem])
    simp [bump, hau, ih h2]

theorem foldl_bump_keys_sorted :
    ∀ (l : List Int) (acc : List (Int × Nat)),
      l.Sorted (· ≤ ·) →
      (acc.map Prod.fst).Sorted (· < ·) →
      (∀ x ∈ l, ∀ a ∈ acc.map Prod.fst, a ≤ x) →
      ((l.foldl bump acc).map Prod.fst).Sorted (· < ·) := by
  intro l
  induction l with
  | nil =>
    intro acc _ hacc _
    simpa using hacc
  | cons u rest ih =>
    intro acc hsort hacc hub
    obtain ⟨hu_rest, hrest_sorted⟩ := List.sorted_cons.mp hsort
    simp only [List.foldl_cons]
    by_cases hmem : u ∈ acc.map Prod.fst
    · apply ih (bump acc u) hrest_sorted
      · rw [keys_bump_of_mem acc u hmem]
        exact hacc
      · intro x hx a ha
        rw [keys_bump_of_mem acc u hmem] at ha
        exact hub x (List.mem_cons_of_mem _ hx) a ha
    · apply ih (bump acc u) hrest_sorted
      · rw [keys_bump_of_not_mem acc u hmem]
        apply List.pairwise_append.mpr
        refine ⟨hacc, by simp, ?_⟩
        intro a ha b hb
        simp only [List.mem_singleton] at hb
        have hle : a ≤ u := hub u (List.mem_cons_self _ _) a ha
        have hne : a ≠ u := fun he => hmem (he ▸ ha)
        rw [hb]
        exact lt_of_le_of_ne hle hne
      · intro x hx a ha
        rw [keys_bump_of_not_mem acc u hmem] at ha
        rcases List.mem_append.mp ha with h1 | h1
        · exact hub x (List.mem_cons_of_mem _ hx) a h1
        · simp only [List.mem_singleton] at h1
          subst h1
          exact hu_rest x hx

/-- C9: every histogram returned by a completed run of `B` enumerates
its keys in strictly ascending position order (the units list is sorted
before counting, so insertion order is ascending), and therefore
`save_csv` writes its `<position>,<count>` lines in ascending position
order — one line per entry, in the mapping's insertion order. -/
theorem C9_histogram_keys_ascending (N T : Nat) (m : List (ℚ × Int))
    (draws : Nat → Nat → ℚ) (h : List (Int × Nat))
    (hB : B N T m draws = some h) :
    (h.map Prod.fst).Sorted (· < ·) ∧
      save_csv h = h.map (fun kv => toString kv.1 ++ "," ++ toString kv.2) := by
  obtain ⟨final, hrun, hcount⟩ := Option.map_eq_some'.mp hB
  refine ⟨?_, rfl⟩
  rw [← hcount, countFold]
  apply foldl_bump_keys_sorted
  · exact List.sorted_insertionSort _ final
  · simp
  · intro x hx a ha
    simp at ha

/-- C9 witness: a completed 2-unit 0-trial run returns the histogram
`{0 : 2}`, whose key list is ascending and whose CSV lines follow the
mapping order. -/
theorem C9_witness :
    (([((0:Int), 2)] : List (Int × Nat)).map Prod.fst).Sorted (· < ·) ∧
      save_csv [((0:Int), 2)]
        = ([((0:Int), 2)] : List (Int × Nat)).map
            (fun kv => toString kv.1 ++ "," ++ toString kv.2) :=
  C9_histogram_keys_ascending 2 0 [((1:ℚ), (1:Int))] (constDraws 0)
    [((0:Int), 2)]
    (by norm_num [B, runFrom, midpoint, maxvals, pyRound, countFold,
      List.insertionSort, List.orderedInsert, bump])
